import Mathlib

/-!
Verification development for the live keymap viewer
(`keymap_drawer/live.py`, `keymap_drawer/live_preflight.py`).

The Python code is shallowly embedded:

* Python strings are Lean `String`s; the handful of Python string
  operations the code uses (`str.split()`, `' '.join`, `str.strip()`,
  `str.lower()`, `in` substring test, slicing, `len`) are re-implemented
  here over `String.data` with Python's documented semantics (restricted
  to ASCII whitespace and ASCII case-folding, which covers every string
  the program manipulates).
* A Python `set` of strings is represented by the list of its member
  tokens: membership is list membership, `set.add`/`set.discard` are
  `addTok`/`removeTok`, and `' '.join(sorted(s))` is `pyJoin (sortDedup l)`,
  since `sorted(set(l))` enumerates the distinct members of `l` in
  strictly increasing lexicographic (code-point) order, which is exactly
  what `sortDedup` constructs.
* The `xml.etree.ElementTree` document is an inductive tree `Elem`;
  element identity is represented by the path of child indices from the
  root, which is faithful because `ElementTree` compares elements by
  object identity and every element has a unique position in the tree.
* Qt rendering side effects (document reserialization, renderer reload,
  repaint) are represented by a `reloads` counter in `WidgetState`: the
  code reserializes, reloads and repaints exactly once per counter
  increment.
-/

/-! ### Python string primitives -/

/-- ASCII whitespace as recognised by Python's `str.split()` / `str.strip()`
(restricted to the ASCII range; no string in the program contains
non-ASCII whitespace). -/
def pyIsSpace (c : Char) : Bool :=
  c = ' ' || c = '\t' || c = '\n' || c = '\r' || c = '\x0b' || c = '\x0c'

/-- Worker for Python `str.split()` with no arguments: splits on runs of
whitespace, discarding empty pieces.  `acc` holds the (reversed) current
token. -/
def splitChars : List Char → List Char → List (List Char)
  | [], acc => if acc.isEmpty then [] else [acc.reverse]
  | c :: cs, acc =>
    if pyIsSpace c then
      if acc.isEmpty then splitChars cs [] else acc.reverse :: splitChars cs []
    else splitChars cs (c :: acc)

/-- Python `s.split()` (no separator argument). -/
def pySplit (s : String) : List String :=
  (splitChars s.data []).map String.mk

/-- Worker for Python `' '.join(...)`. -/
def joinWithSpace : List (List Char) → List Char
  | [] => []
  | [t] => t
  | t :: t2 :: ts => t ++ ' ' :: joinWithSpace (t2 :: ts)

/-- Python `' '.join(l)`. -/
def pyJoin (l : List String) : String :=
  String.mk (joinWithSpace (l.map String.data))

/-- Python `s.strip()` (whitespace strip at both ends). -/
def pyStrip (s : String) : String :=
  String.mk (((s.data.dropWhile pyIsSpace).reverse.dropWhile pyIsSpace).reverse)

/-- The ASCII upper/lower case table used by Python's `str.lower()` on the
strings this program manipulates. -/
def lowerPairs : List (Char × Char) :=
  [('A', 'a'), ('B', 'b'), ('C', 'c'), ('D', 'd'), ('E', 'e'), ('F', 'f'),
   ('G', 'g'), ('H', 'h'), ('I', 'i'), ('J', 'j'), ('K', 'k'), ('L', 'l'),
   ('M', 'm'), ('N', 'n'), ('O', 'o'), ('P', 'p'), ('Q', 'q'), ('R', 'r'),
   ('S', 's'), ('T', 't'), ('U', 'u'), ('V', 'v'), ('W', 'w'), ('X', 'x'),
   ('Y', 'y'), ('Z', 'z')]

/-- Association-list lookup over the case table. -/
def lookupChar : List (Char × Char) → Char → Option Char
  | [], _ => none
  | (k, v) :: r, c => if c = k then some v else lookupChar r c

/-- Lower-case a single character (ASCII). -/
def charLower (c : Char) : Char :=
  (lookupChar lowerPairs c).getD c

/-- Python `s.lower()` (ASCII case-folding). -/
def pyLower (s : String) : String :=
  String.mk (s.data.map charLower)

/-- Boolean prefix test on character lists. -/
def isPrefixL : List Char → List Char → Bool
  | [], _ => true
  | _ :: _, [] => false
  | a :: as, b :: bs => a == b && isPrefixL as bs

/-- Boolean contiguous-substring test on character lists. -/
def isInfixL (n : List Char) : List Char → Bool
  | [] => n.isEmpty
  | c :: cs => isPrefixL n (c :: cs) || isInfixL n cs

/-- Python `needle in hay` on strings (substring containment). -/
def pyInStr (needle hay : String) : Bool :=
  isInfixL needle.data hay.data

/-- Strict lexicographic (code-point) comparison on character lists,
matching Python's `<` on strings. -/
def lexLt : List Char → List Char → Bool
  | [], [] => false
  | [], _ :: _ => true
  | _ :: _, [] => false
  | a :: as, b :: bs =>
    if a.toNat < b.toNat then true
    else if b.toNat < a.toNat then false
    else lexLt as bs

/-- Python `s < t` on strings. -/
def tokLt (s t : String) : Bool :=
  lexLt s.data t.data

/-- Insert a token into a strictly-sorted duplicate-free token list. -/
def insertTok (x : String) : List String → List String
  | [] => [x]
  | y :: ys =>
    if x = y then y :: ys
    else if tokLt x y then x :: y :: ys
    else y :: insertTok x ys

/-- The strictly increasing enumeration of the distinct members of `l`:
the model of Python's `sorted(set(l))`. -/
def sortDedup : List String → List String
  | [] => []
  | t :: ts => insertTok t (sortDedup ts)

/-- Python `set.add` on a token-list representation of a set. -/
def addTok (x : String) (l : List String) : List String :=
  if x ∈ l then l else l ++ [x]

/-- Python `set.discard` on a token-list representation of a set. -/
def removeTok (x : String) (l : List String) : List String :=
  l.filter (fun y => y != x)

/-- Association-list lookup modelling Python `dict.get` over a literal
string-keyed dictionary. -/
def lookupStr : List (String × String) → String → Option String
  | [], _ => none
  | (k, v) :: r, n => if n = k then some v else lookupStr r n

/-- Python `len(s)` (number of characters). -/
def pyLen (s : String) : Nat := s.data.length

/-- Python `s[4:]` as used on key codes (drop the first four characters). -/
def pyDrop4 (s : String) : String := String.mk (s.data.drop 4)

/-! ### XML element tree (xml.etree.ElementTree model)

An element has a tag, an attribute dictionary (association list in
document order), optional direct text content, and a list of child
elements.  `ElementTree` compares elements by object identity; since
every element occupies a unique position in the tree, identity is
modelled by the `NodePath` of child indices from the root. -/

inductive Elem where
  | mk (tag : String) (attrs : List (String × String)) (text : Option String)
      (children : List Elem)

/-- NodePath of child indices from the root to a node. -/
abbrev NodePath := List Nat

def Elem.tag : Elem → String
  | .mk t _ _ _ => t

def Elem.attrs : Elem → List (String × String)
  | .mk _ a _ _ => a

def Elem.text : Elem → Option String
  | .mk _ _ s _ => s

def Elem.children : Elem → List Elem
  | .mk _ _ _ cs => cs

/-- Attribute lookup (Python `elem.get(name, default)` reads the attrib
dict; first binding wins, and `setAttrList` keeps keys unique). -/
def lookupAttr : List (String × String) → String → Option String
  | [], _ => none
  | (k, v) :: r, n => if n = k then some v else lookupAttr r n

/-- Python `elem.get(name, dflt)`. -/
def Elem.getAttrD (e : Elem) (name dflt : String) : String :=
  (lookupAttr e.attrs name).getD dflt

/-- Update a binding in the attribute dictionary (Python `elem.set`):
overwrite in place if present, append otherwise. -/
def setAttrList : List (String × String) → String → String → List (String × String)
  | [], n, v => [(n, v)]
  | (k, w) :: r, n, v => if n = k then (k, v) :: r else (k, w) :: setAttrList r n v

/-- Python `elem.set(name, v)` on the element itself. -/
def Elem.setAttr : Elem → String → String → Elem
  | .mk t a s cs, n, v => .mk t (setAttrList a n v) s cs

/-- The node reached from `e` by following a path of child indices. -/
def Elem.nodeAt : Elem → NodePath → Option Elem
  | e, [] => some e
  | e, i :: p =>
    match e.children[i]? with
    | none => none
    | some c => c.nodeAt p

/-- Apply `f` to the list entry at index `i` (identity when out of range). -/
def modifyIdx (f : Elem → Elem) : Nat → List Elem → List Elem
  | _, [] => []
  | 0, c :: cs => f c :: cs
  | n + 1, c :: cs => c :: modifyIdx f n cs

/-- In-place mutation `node.set(name, v)` of the node at path `p`,
expressed as a functional update of the tree. -/
def setAttrAt (name v : String) : NodePath → Elem → Elem
  | [], e => e.setAttr name v
  | i :: p, e => .mk e.tag e.attrs e.text (modifyIdx (fun c => setAttrAt name v p c) i e.children)

mutual

/-- Paths of all elements with the given tag, in document (preorder)
order, the root included: Python `root.iter(tag)`. -/
def iterPaths (tag : String) : Elem → List NodePath
  | .mk t _ _ cs => (if t = tag then [([] : NodePath)] else []) ++ iterPathsFrom tag 0 cs

/-- Worker for `iterPaths` over a child list starting at child index `i`. -/
def iterPathsFrom (tag : String) : Nat → List Elem → List NodePath
  | _, [] => []
  | i, c :: cs => (iterPaths tag c).map (fun p => i :: p) ++ iterPathsFrom tag (i + 1) cs

end

/-- Index of the first direct child with the given tag, counting from `i`:
Python `for rect in parent.findall(tag): return rect`. -/
def findChildIdx (tag : String) : Nat → List Elem → Option Nat
  | _, [] => none
  | i, c :: cs => if c.tag = tag then some i else findChildIdx tag (i + 1) cs

/-! ### SvgWidget model (live.py) -/

/-- Namespaced SVG text tag, as written in `live.py`. -/
def svgTextTag : String := "\x7bhttp://www.w3.org/2000/svg\x7dtext"

/-- Namespaced SVG rect tag, as written in `live.py`. -/
def svgRectTag : String := "\x7bhttp://www.w3.org/2000/svg\x7drect"

/-- The body of the scan loop of `SvgWidget.find_key_rect`: the text
element's class attribute contains `'key'` as a substring, its text is
truthy (present and non-empty), and its stripped text equals the key. -/
def textElemMatches (e : Elem) (key_text : String) : Bool :=
  pyInStr "key" (e.getAttrD "class" "") &&
    (match e.text with
     | some s => (!(s == "")) && (pyStrip s == key_text)
     | none => false)

/-- Match test at a path of the document. -/
def matchAt (root : Elem) (key_text : String) (q : NodePath) : Bool :=
  match root.nodeAt q with
  | some e => textElemMatches e key_text
  | none => false

/-- Parent of the node at a path.  `SvgWidget._find_parent` scans
`root.iter()` for the element whose child list contains the node by
object identity; since every node has a unique position, that is the
node at the path with the last index removed, and the root has no
parent. -/
def parentPath : NodePath → Option NodePath
  | [] => none
  | q => some q.dropLast

/-- Model of `SvgWidget._get_rect_from_text_element`: the first rect
child of the parent group of the text element at `tp`. -/
def rectFromTextPath (root : Elem) (tp : NodePath) : Option NodePath :=
  match parentPath tp with
  | none => none
  | some pp =>
    match root.nodeAt pp with
    | none => none
    | some par =>
      match findChildIdx svgRectTag 0 par.children with
      | none => none
      | some i => some (pp ++ [i])

/-- Model of `SvgWidget.find_key_rect`: scan all text elements in
document order; for the first whose class contains `'key'` and whose
stripped text equals `key_text`, return the rect of its parent group
(which may still be absent, in which case the result is `none` without
trying later matches). -/
def findKeyRectPath (root : Elem) (key_text : String) : Option NodePath :=
  match (iterPaths svgTextTag root).find? (fun q => matchAt root key_text q) with
  | none => none
  | some q => rectFromTextPath root q

/-- Class attribute of the node at a path (`rect.get('class', '')`). -/
def classAt (root : Elem) (p : NodePath) : String :=
  match root.nodeAt p with
  | some e => e.getAttrD "class" ""
  | none => ""

/-- State of a `SvgWidget`: the parsed SVG tree, the held-key set, and a
counter of renderer reloads (each reload reserializes the document,
hands it to the `QSvgRenderer`, and triggers one repaint via
`self.update()`). -/
structure WidgetState where
  svg_root : Elem
  held_keys : List String
  reloads : Nat

/-- Model of `SvgWidget.update_key_state`. -/
def update_key_state (st : WidgetState) (key_text : String) (is_held : Bool) : WidgetState :=
  match findKeyRectPath st.svg_root key_text with
  | none => st
  | some p =>
    let class_attr := classAt st.svg_root p
    let classes := pySplit class_attr
    let classes' := if is_held then addTok "held" classes else removeTok "held" classes
    let held' := if is_held then addTok key_text st.held_keys
                 else removeTok key_text st.held_keys
    { svg_root := setAttrAt "class" (pyJoin (sortDedup classes')) p st.svg_root
      held_keys := held'
      reloads := st.reloads + 1 }

/-- Widget state right after `SvgWidget.__init__` on a parsed document. -/
def initState (root : Elem) : WidgetState :=
  { svg_root := root, held_keys := [], reloads := 0 }

/-- Fold a sequence of `(label, is_held)` transitions through
`update_key_state`. -/
def applySeq (st : WidgetState) : List (String × Bool) → WidgetState
  | [] => st
  | (k, b) :: rest => applySeq (update_key_state st k b) rest

/-! ### Input backends and window handlers (live.py) -/

/-- Observable effect of one key-event handler invocation on the window:
close the window, forward to `SvgWidget.update_key_state`, or nothing. -/
inductive KeyAction where
  | closeWindow
  | updateKey (label : String) (is_held : Bool)
  | ignore
deriving DecidableEq

/-- Qt key codes appearing in `QT_KEY_MAP`; any other code is
`other c` (Qt key codes are integers). -/
inductive QtKey where
  | shiftKey | controlKey | altKey | altGrKey | metaKey | superLKey | superRKey
  | capsLockKey | tabKey | returnKey | enterKey | spaceKey | backspaceKey
  | deleteKey | escapeKey
  | other (code : Nat)
deriving DecidableEq

/-- Model of `QT_KEY_MAP` (a dict from Qt key code to SVG label). -/
def QT_KEY_MAP : QtKey → Option String
  | .shiftKey => some "Shift"
  | .controlKey => some "Control"
  | .altKey => some "Alt"
  | .altGrKey => some "AltGr"
  | .metaKey => some "Meta"
  | .superLKey => some "Meta"
  | .superRKey => some "Meta"
  | .capsLockKey => some "Caps"
  | .tabKey => some "Tab"
  | .returnKey => some "Enter"
  | .enterKey => some "Enter"
  | .spaceKey => some "Space"
  | .backspaceKey => some "Backspace"
  | .deleteKey => some "Delete"
  | .escapeKey => some "Esc"
  | .other _ => none

/-- A (non-null) `QKeyEvent`: its key code and its `text()`. -/
structure QKeyEvent where
  key : QtKey
  text : String

/-- The `key_char` computed by `keyPressEvent`/`keyReleaseEvent`:
`QT_KEY_MAP.get(a0.key())`, falling back to `a0.text()` when the lookup
result is falsy (absent or empty). -/
def qtKeyChar (ev : QKeyEvent) : String :=
  match QT_KEY_MAP ev.key with
  | some s => if s = "" then ev.text else s
  | none => ev.text

/-- Model of `KeymapWindow.keyPressEvent` (for a non-null event). -/
def keyPressEvent (ev : QKeyEvent) : KeyAction :=
  let key_char := qtKeyChar ev
  if key_char ≠ "" ∧ pyLower key_char = "x" then .closeWindow
  else if key_char ≠ "" then .updateKey key_char true
  else .ignore

/-- Model of `KeymapWindow.keyReleaseEvent` (for a non-null event). -/
def keyReleaseEvent (ev : QKeyEvent) : KeyAction :=
  let key_char := qtKeyChar ev
  if key_char ≠ "" ∧ pyLower key_char ≠ "x" then .updateKey key_char false
  else .ignore

/-- Model of `KeymapWindow.on_global_key_press`. -/
def on_global_key_press (key_char : String) : KeyAction :=
  if key_char = "x" then .closeWindow else .updateKey key_char true

/-- Model of `KeymapWindow.on_global_key_release`. -/
def on_global_key_release (key_char : String) : KeyAction :=
  if key_char ≠ "x" then .updateKey key_char false else .ignore

/-- Model of `EVDEV_KEY_MAP` (a dict from lowercased evdev key name to
SVG label). -/
def EVDEV_KEY_MAP : List (String × String) :=
  [("leftshift", "Shift"), ("rightshift", "Shift"),
   ("leftctrl", "Control"), ("rightctrl", "Control"),
   ("leftalt", "Alt"), ("rightalt", "AltGr"),
   ("leftmeta", "Meta"), ("rightmeta", "Meta"),
   ("capslock", "Caps"), ("tab", "Tab"), ("enter", "Enter"),
   ("space", "Space"), ("backspace", "Backspace"), ("delete", "Delete"),
   ("esc", "Esc"), ("escape", "Esc")]

/-- Key-name translation done by `KeyboardMonitor.start.event_loop` for
one raw evdev keycode: strip the `KEY_` prefix, lowercase, map through
`EVDEV_KEY_MAP`, and emit only single characters or mapped special keys.
Returns the emitted `key_char`, or `none` when no signal is emitted. -/
def evdevEmit (keycode : String) : Option String :=
  if isPrefixL "KEY_".data keycode.data then
    let key_name := pyLower (pyDrop4 keycode)
    let key_char := (lookupStr EVDEV_KEY_MAP key_name).getD key_name
    if pyLen key_char = 1 || (lookupStr EVDEV_KEY_MAP key_name).isSome then
      some key_char
    else none
  else none

/-- A `KeymapWindow`: its SVG widget and whether `close()` was called. -/
structure WindowState where
  widget : WidgetState
  closed : Bool

/-- Apply one handler action to the window. -/
def applyAction (w : WindowState) (a : KeyAction) : WindowState :=
  match a with
  | .closeWindow => { w with closed := true }
  | .updateKey l b => { w with widget := update_key_state w.widget l b }
  | .ignore => w

/-- One raw device event (keycode plus down/up) flowing through the
global backend: evdev translation, then the queued signal handler. -/
def deviceKeyEvent (w : WindowState) (keycode : String) (down : Bool) : WindowState :=
  match evdevEmit keycode with
  | none => w
  | some c =>
    applyAction w (if down then on_global_key_press c else on_global_key_release c)

/-! ### live() startup and PyQt6 probe -/

/-- Observable startup trace of `live()`: whether the file-not-found
error was printed, the early `sys.exit` code if any, and whether the
`QApplication` and the `KeymapWindow` were created. -/
structure LiveTrace where
  errorPrinted : Bool
  earlyExitCode : Option Nat
  appCreated : Bool
  windowCreated : Bool

/-- Model of `live()` over an abstract filesystem-existence predicate:
if the SVG path does not exist, print the error and exit with code 1
before creating the application or the window; otherwise create both. -/
def live (fsExists : String → Bool) : LiveTrace :=
  let svg_path := "test/miryoku-num.svg"
  if !(fsExists svg_path) then
    { errorPrinted := true, earlyExitCode := some 1,
      appCreated := false, windowCreated := false }
  else
    { errorPrinted := false, earlyExitCode := none,
      appCreated := true, windowCreated := true }

/-- Outcome of the Python import statement inside `has_pyqt6`: either
success or an arbitrary raised exception (an `ImportError` or any other
failure such as a missing native library). -/
inductive PyException where
  | importError (msg : String)
  | otherError (msg : String)

/-- Model of `live_preflight.has_pyqt6`: `True` exactly when importing
`PyQt6.QtWidgets`/`PyQt6.QtCore` succeeds; every raised exception is
caught and yields `False`. -/
def has_pyqt6 (importAttempt : Except PyException Unit) : Bool :=
  match importAttempt with
  | .ok _ => true
  | .error _ => false

/-! ### Concrete documents for witnesses and counterexamples -/

/-- Namespaced SVG group tag. -/
def svgGroupTag : String := "\x7bhttp://www.w3.org/2000/svg\x7dg"

/-- Namespaced SVG root tag. -/
def svgRootTag : String := "\x7bhttp://www.w3.org/2000/svg\x7dsvg"

/-- A document with one key group: a rect and a `key tap` text node
labelled `a`. -/
def docA : Elem :=
  .mk svgRootTag [] none
    [.mk svgGroupTag [] none
      [.mk svgRectTag [("class", "key")] none [],
       .mk svgTextTag [("class", "key tap")] (some "a") []]]

/-- A document whose single key group carries two key-label text nodes
(`a` from the tap layer and `A` from the shifted layer) sharing one
rect, as keymap-drawer draws shifted legends. -/
def docAB : Elem :=
  .mk svgRootTag [] none
    [.mk svgGroupTag [] none
      [.mk svgRectTag [("class", "key")] none [],
       .mk svgTextTag [("class", "key tap")] (some "a") [],
       .mk svgTextTag [("class", "key shifted")] (some "A") []]]

/-- A document with two key groups whose text labels are both `a`
(duplicate labels, e.g. a split spacebar). -/
def docDup : Elem :=
  .mk svgRootTag [] none
    [.mk svgGroupTag [] none
      [.mk svgRectTag [("class", "key")] none [],
       .mk svgTextTag [("class", "key tap")] (some "a") []],
     .mk svgGroupTag [] none
      [.mk svgRectTag [("class", "key")] none [],
       .mk svgTextTag [("class", "key tap")] (some "a") []]]

/-- A document with a single `Shift` key. -/
def docShift : Elem :=
  .mk svgRootTag [] none
    [.mk svgGroupTag [] none
      [.mk svgRectTag [("class", "key")] none [],
       .mk svgTextTag [("class", "key tap")] (some "Shift") []]]


/-! ### Derived observations used in statements -/

/-- Tag of the node at a path. -/
def tagAt (root : Elem) (q : NodePath) : Option String :=
  (root.nodeAt q).map Elem.tag

/-- Attribute dictionary of the node at a path. -/
def attrsAt (root : Elem) (q : NodePath) : Option (List (String × String)) :=
  (root.nodeAt q).map Elem.attrs

/-- Text content of the node at a path. -/
def textAt (root : Elem) (q : NodePath) : Option (Option String) :=
  (root.nodeAt q).map Elem.text

/-- Tags of the direct children of the node at a path. -/
def childTagsAt (root : Elem) (q : NodePath) : Option (List String) :=
  (root.nodeAt q).map (fun e => e.children.map Elem.tag)

/-- A well-formed class token: non-empty and free of whitespace.  Every
token produced by `pySplit` has this shape. -/
def goodTok (t : String) : Prop :=
  t ≠ "" ∧ ∀ c ∈ t.data, pyIsSpace c = false

/-- Document-order list of the text-element paths whose class contains
`'key'` and whose stripped text equals `key_text` (the candidates
scanned by `SvgWidget.find_key_rect`). -/
def matchingTextPaths (root : Elem) (key_text : String) : List NodePath :=
  (iterPaths svgTextTag root).filter (fun q => matchAt root key_text q)

/-! ### Lemmas about the string primitives -/

theorem string_data_inj {s t : String} (h : s.data = t.data) : s = t := by
  cases s
  cases t
  exact congrArg String.mk h

theorem string_data_ne_nil {s : String} (h : s ≠ "") : s.data ≠ [] := by
  intro hd
  exact h (string_data_inj (by simpa using hd))

theorem lookupChar_mem_snd {ps : List (Char × Char)} {c d : Char}
    (h : lookupChar ps c = some d) : d ∈ ps.map Prod.snd := by
  induction ps with
  | nil => simp [lookupChar] at h
  | cons p r ih =>
    obtain ⟨k, v⟩ := p
    by_cases hc : c = k
    · simp [lookupChar, hc] at h
      simp [h]
    · simp only [lookupChar, if_neg hc] at h
      simpa using Or.inr (ih h)

theorem lookupChar_lower_vals : ∀ d ∈ lowerPairs.map Prod.snd, lookupChar lowerPairs d = none := by
  decide

theorem charLower_idem (c : Char) : charLower (charLower c) = charLower c := by
  unfold charLower
  cases h : lookupChar lowerPairs c with
  | none => simp [h]
  | some d =>
    have hnone : lookupChar lowerPairs d = none :=
      lookupChar_lower_vals d (lookupChar_mem_snd h)
    simp [h, hnone]

theorem pyLower_idem (s : String) : pyLower (pyLower s) = pyLower s := by
  unfold pyLower
  simp [List.map_map, Function.comp_def, charLower_idem]

theorem lexLt_irrefl (l : List Char) : lexLt l l = false := by
  induction l with
  | nil => rfl
  | cons a as ih => simp [lexLt, ih]

theorem char_eq_of_toNat_eq {a b : Char} (h : a.toNat = b.toNat) : a = b :=
  Char.eq_of_val_eq (UInt32.toNat.inj h)

theorem lexLt_trans {a b c : List Char} (h1 : lexLt a b = true) (h2 : lexLt b c = true) :
    lexLt a c = true := by
  induction a generalizing b c with
  | nil =>
    cases b with
    | nil => simp [lexLt] at h1
    | cons y ys =>
      cases c with
      | nil => simp [lexLt] at h2
      | cons z zs => rfl
  | cons x xs ih =>
    cases b with
    | nil => simp [lexLt] at h1
    | cons y ys =>
      cases c with
      | nil => simp [lexLt] at h2
      | cons z zs =>
        simp only [lexLt] at h1 h2 ⊢
        by_cases hxy : x.toNat < y.toNat
        · by_cases hyz : y.toNat < z.toNat
          · simp [Nat.lt_trans hxy hyz]
          · by_cases hzy : z.toNat < y.toNat
            · simp [hyz, hzy] at h2
            · have hy : y.toNat = z.toNat :=
                Nat.le_antisymm (Nat.not_lt.mp hzy) (Nat.not_lt.mp hyz)
              simp [hy ▸ hxy]
        · by_cases hyx : y.toNat < x.toNat
          · simp [hxy, hyx] at h1
          · have hx : x.toNat = y.toNat :=
              Nat.le_antisymm (Nat.not_lt.mp hyx) (Nat.not_lt.mp hxy)
            simp only [if_neg hxy, if_neg hyx] at h1
            by_cases hyz : y.toNat < z.toNat
            · simp [hx ▸ hyz]
            · by_cases hzy : z.toNat < y.toNat
              · simp [hyz, hzy] at h2
              · simp only [if_neg hyz, if_neg hzy] at h2
                have hxz : ¬ x.toNat < z.toNat := by
                  rw [hx]; exact hyz
                have hzx : ¬ z.toNat < x.toNat := by
                  rw [hx]; exact hzy
                simp [hxz, hzx, ih h1 h2]

theorem lexLt_eq_of_not_lt {a b : List Char} (h1 : lexLt a b = false) (h2 : lexLt b a = false) :
    a = b := by
  induction a generalizing b with
  | nil =>
    cases b with
    | nil => rfl
    | cons y ys => simp [lexLt] at h1
  | cons x xs ih =>
    cases b with
    | nil => simp [lexLt] at h2
    | cons y ys =>
      simp only [lexLt] at h1 h2
      by_cases hxy : x.toNat < y.toNat
      · simp [hxy] at h1
      · by_cases hyx : y.toNat < x.toNat
        · simp [hyx, hxy] at h2
        · have hx : x = y :=
            char_eq_of_toNat_eq (Nat.le_antisymm (Nat.not_lt.mp hyx) (Nat.not_lt.mp hxy))
          simp only [if_neg hxy, if_neg hyx] at h1
          simp only [if_neg hyx, if_neg hxy] at h2
          rw [hx, ih h1 h2]

theorem tokLt_irrefl (s : String) : tokLt s s = false :=
  lexLt_irrefl s.data

theorem tokLt_trans {a b c : String} (h1 : tokLt a b = true) (h2 : tokLt b c = true) :
    tokLt a c = true :=
  lexLt_trans h1 h2

theorem tokLt_eq_of_not_lt {a b : String} (h1 : tokLt a b = false) (h2 : tokLt b a = false) :
    a = b :=
  string_data_inj (lexLt_eq_of_not_lt h1 h2)

theorem mem_insertTok {a x : String} {l : List String} :
    a ∈ insertTok x l ↔ a = x ∨ a ∈ l := by
  induction l with
  | nil => simp [insertTok]
  | cons y ys ih =>
    by_cases hxy : x = y
    · subst hxy
      simp only [insertTok, if_pos rfl]
      constructor
      · exact Or.inr
      · rintro (rfl | h)
        · simp
        · exact h
    · by_cases hlt : tokLt x y = true
      · simp only [insertTok, if_neg hxy, if_pos hlt]
        simp [or_comm, or_left_comm, or_assoc]
      · simp only [insertTok, if_neg hxy, if_neg hlt]
        simp only [List.mem_cons, ih]
        tauto

theorem insertTok_pairwise {x : String} {l : List String}
    (h : List.Pairwise (fun a b => tokLt a b = true) l) :
    List.Pairwise (fun a b => tokLt a b = true) (insertTok x l) := by
  induction l with
  | nil => simp [insertTok]
  | cons y ys ih =>
    obtain ⟨hy, hys⟩ := List.pairwise_cons.mp h
    by_cases hxy : x = y
    · subst hxy
      simpa [insertTok] using h
    · by_cases hlt : tokLt x y = true
      · simp only [insertTok, if_neg hxy, if_pos hlt]
        refine List.pairwise_cons.mpr ⟨?_, h⟩
        intro z hz
        rcases List.mem_cons.mp hz with rfl | hz
        · exact hlt
        · exact tokLt_trans hlt (hy z hz)
      · have hxy' : tokLt x y = false := by
          simpa using hlt
        have hyx : tokLt y x = true := by
          cases hc : tokLt y x with
          | true => rfl
          | false => exact absurd (tokLt_eq_of_not_lt hxy' hc) hxy
        simp only [insertTok, if_neg hxy, if_neg hlt]
        refine List.pairwise_cons.mpr ⟨?_, ih hys⟩
        intro z hz
        rcases mem_insertTok.mp hz with rfl | hz
        · exact hyx
        · exact hy z hz

theorem sortDedup_pairwise (l : List String) :
    List.Pairwise (fun a b => tokLt a b = true) (sortDedup l) := by
  induction l with
  | nil => simp [sortDedup]
  | cons t ts ih => exact insertTok_pairwise ih

theorem mem_sortDedup {a : String} {l : List String} : a ∈ sortDedup l ↔ a ∈ l := by
  induction l with
  | nil => simp [sortDedup]
  | cons t ts ih => simp [sortDedup, mem_insertTok, ih]

theorem sortDedup_nodup (l : List String) : (sortDedup l).Nodup := by
  refine (sortDedup_pairwise l).imp ?_
  intro a b hab
  intro he
  rw [he] at hab
  exact absurd hab (by simp [tokLt_irrefl])

theorem insertTok_of_all_lt {x : String} {l : List String}
    (h : ∀ z ∈ l, tokLt x z = true) : insertTok x l = x :: l := by
  cases l with
  | nil => rfl
  | cons y ys =>
    have hlt : tokLt x y = true := h y (by simp)
    have hxy : x ≠ y := by
      rintro rfl
      simp [tokLt_irrefl] at hlt
    simp [insertTok, hxy, hlt]

theorem sortDedup_eq_self {l : List String}
    (h : List.Pairwise (fun a b => tokLt a b = true) l) : sortDedup l = l := by
  induction l with
  | nil => rfl
  | cons t ts ih =>
    obtain ⟨ht, hts⟩ := List.pairwise_cons.mp h
    rw [sortDedup, ih hts, insertTok_of_all_lt ht]

theorem sortDedup_idem (l : List String) : sortDedup (sortDedup l) = sortDedup l :=
  sortDedup_eq_self (sortDedup_pairwise l)

theorem mem_addTok {a x : String} {l : List String} : a ∈ addTok x l ↔ a = x ∨ a ∈ l := by
  by_cases h : x ∈ l
  · simp only [addTok, if_pos h]
    constructor
    · exact Or.inr
    · rintro (rfl | ha)
      · exact h
      · exact ha
  · simp [addTok, h, or_comm]

theorem mem_removeTok {a x : String} {l : List String} :
    a ∈ removeTok x l ↔ a ∈ l ∧ a ≠ x := by
  simp [removeTok, List.mem_filter, bne_iff_ne]

theorem not_mem_removeTok (x : String) (l : List String) : x ∉ removeTok x l := by
  simp [mem_removeTok]

theorem removeTok_of_not_mem {x : String} {l : List String} (h : x ∉ l) :
    removeTok x l = l := by
  apply List.filter_eq_self.mpr
  intro a ha
  have : a ≠ x := by
    rintro rfl
    exact h ha
  simpa [bne_iff_ne] using this

theorem addTok_of_mem {x : String} {l : List String} (h : x ∈ l) : addTok x l = l := by
  simp [addTok, h]

theorem addTok_idem (x : String) (l : List String) :
    addTok x (addTok x l) = addTok x l :=
  addTok_of_mem (mem_addTok.mpr (Or.inl rfl))

theorem removeTok_idem (x : String) (l : List String) :
    removeTok x (removeTok x l) = removeTok x l :=
  removeTok_of_not_mem (not_mem_removeTok x l)

theorem splitChars_chunk {t : List Char} (ht : ∀ c ∈ t, pyIsSpace c = false)
    (rest acc : List Char) :
    splitChars (t ++ rest) acc = splitChars rest (t.reverse ++ acc) := by
  induction t generalizing acc with
  | nil => simp
  | cons c cs ih =>
    have hc : pyIsSpace c = false := ht c (by simp)
    simp only [List.cons_append, splitChars, hc, Bool.false_eq_true, if_false]
    show splitChars (cs ++ rest) (c :: acc) = splitChars rest ((c :: cs).reverse ++ acc)
    rw [ih (fun d hd => ht d (by simp [hd])) (c :: acc)]
    simp

theorem splitChars_join {ts : List (List Char)}
    (h : ∀ t ∈ ts, t ≠ [] ∧ ∀ c ∈ t, pyIsSpace c = false) :
    splitChars (joinWithSpace ts) [] = ts := by
  induction ts with
  | nil => rfl
  | cons t ts ih =>
    cases ts with
    | nil =>
      obtain ⟨hne, hns⟩ := h t (by simp)
      have h1 : splitChars (t ++ []) [] = splitChars [] (t.reverse ++ []) :=
        splitChars_chunk hns [] []
      simp only [List.append_nil] at h1
      show splitChars t [] = [t]
      rw [h1]
      have hrev : t.reverse.isEmpty = false := by
        cases t with
        | nil => exact absurd rfl hne
        | cons a as => simp
      simp [splitChars, hrev]
    | cons t2 ts2 =>
      obtain ⟨hne, hns⟩ := h t (by simp)
      show splitChars (t ++ ' ' :: joinWithSpace (t2 :: ts2)) [] = t :: t2 :: ts2
      rw [splitChars_chunk hns _ []]
      simp only [List.append_nil]
      have hrev : t.reverse.isEmpty = false := by
        cases t with
        | nil => exact absurd rfl hne
        | cons a as => simp
      have hsp : pyIsSpace ' ' = true := rfl
      simp only [splitChars, hsp, if_true, hrev, Bool.false_eq_true, if_false,
        List.reverse_reverse]
      rw [ih (fun u hu => h u (by simp [hu]))]

theorem splitChars_good {cs : List Char} :
    ∀ {acc t : List Char}, (∀ c ∈ acc, pyIsSpace c = false) → t ∈ splitChars cs acc →
      t ≠ [] ∧ ∀ c ∈ t, pyIsSpace c = false := by
  induction cs with
  | nil =>
    intro acc t hacc h
    by_cases he : acc.isEmpty
    · simp [splitChars, he] at h
    · simp only [splitChars, he, Bool.false_eq_true, if_false, List.mem_singleton] at h
      subst h
      constructor
      · intro hr
        have : acc = [] := by simpa using congrArg List.reverse hr
        rw [this] at he
        exact he rfl
      · intro c hc
        exact hacc c (List.mem_reverse.mp hc)
  | cons c cs ih =>
    intro acc t hacc h
    by_cases hsp : pyIsSpace c = true
    · by_cases he : acc.isEmpty
      · simp only [splitChars, hsp, if_true, he] at h
        exact ih (by simp) h
      · simp only [splitChars, hsp, if_true, he, Bool.false_eq_true, if_false,
          List.mem_cons] at h
        rcases h with rfl | h
        · constructor
          · intro hr
            have : acc = [] := by simpa using congrArg List.reverse hr
            rw [this] at he
            exact he rfl
          · intro d hd
            exact hacc d (List.mem_reverse.mp hd)
        · exact ih (by simp) h
    · have hsp' : pyIsSpace c = false := by simpa using hsp
      simp only [splitChars, hsp', Bool.false_eq_true, if_false] at h
      refine ih ?_ h
      intro d hd
      rcases List.mem_cons.mp hd with rfl | hd
      · exact hsp'
      · exact hacc d hd

theorem goodTok_of_mem_pySplit {s t : String} (h : t ∈ pySplit s) : goodTok t := by
  unfold pySplit at h
  rcases List.mem_map.mp h with ⟨u, hu, rfl⟩
  obtain ⟨hne, hns⟩ := splitChars_good (by simp) hu
  constructor
  · intro he
    apply hne
    have := congrArg String.data he
    simpa using this
  · exact hns

theorem pySplit_pyJoin {l : List String} (h : ∀ s ∈ l, goodTok s) :
    pySplit (pyJoin l) = l := by
  unfold pySplit pyJoin
  have hd : (String.mk (joinWithSpace (l.map String.data))).data
      = joinWithSpace (l.map String.data) := rfl
  rw [hd, splitChars_join ?_]
  · rw [List.map_map]
    rw [show (String.mk ∘ String.data) = id from funext fun s => rfl]
    exact List.map_id l
  · intro t ht
    rcases List.mem_map.mp ht with ⟨s, hs, rfl⟩
    obtain ⟨hne, hns⟩ := h s hs
    exact ⟨string_data_ne_nil hne, hns⟩

theorem pySplit_serialize {cl : List String} (hg : ∀ t ∈ cl, goodTok t) :
    pySplit (pyJoin (sortDedup cl)) = sortDedup cl :=
  pySplit_pyJoin (fun s hs => hg s (mem_sortDedup.mp hs))

theorem mem_pySplit_serialize {a : String} {cl : List String} (hg : ∀ t ∈ cl, goodTok t) :
    a ∈ pySplit (pyJoin (sortDedup cl)) ↔ a ∈ cl := by
  rw [pySplit_serialize hg, mem_sortDedup]

theorem goodTok_held : goodTok "held" := by
  constructor
  · decide
  · decide

/-! ### Lemmas about the element tree -/

theorem nodeAt_cons (e : Elem) (j : Nat) (q : NodePath) :
    e.nodeAt (j :: q) =
      match e.children[j]? with
      | none => none
      | some c => c.nodeAt q := rfl

theorem modifyIdx_getElem (f : Elem → Elem) (i : Nat) (cs : List Elem) (j : Nat) :
    (modifyIdx f i cs)[j]? = if j = i then cs[i]?.map f else cs[j]? := by
  induction cs generalizing i j with
  | nil => simp [modifyIdx]
  | cons c cs ih =>
    cases i with
    | zero =>
      cases j with
      | zero => simp [modifyIdx]
      | succ j => simp [modifyIdx]
    | succ i =>
      cases j with
      | zero => simp [modifyIdx]
      | succ j =>
        simp only [modifyIdx, List.getElem?_cons_succ]
        rw [ih]
        by_cases hj : j = i
        · simp [hj]
        · simp [hj, fun h => hj (Nat.succ_injective h)]

theorem lookupAttr_setAttrList (a : List (String × String)) (n v : String) :
    lookupAttr (setAttrList a n v) n = some v := by
  induction a with
  | nil => simp [setAttrList, lookupAttr]
  | cons p r ih =>
    obtain ⟨k, w⟩ := p
    by_cases hk : n = k
    · simp [setAttrList, lookupAttr, hk]
    · simp [setAttrList, lookupAttr, hk, ih]

theorem getAttrD_setAttr (e : Elem) (n v d : String) :
    (e.setAttr n v).getAttrD n d = v := by
  cases e
  simp [Elem.setAttr, Elem.getAttrD, Elem.attrs, lookupAttr_setAttrList]

theorem setAttrAt_tag (n v : String) (p : NodePath) (e : Elem) :
    (setAttrAt n v p e).tag = e.tag := by
  cases p with
  | nil => cases e; rfl
  | cons i p' => cases e; rfl

theorem tagAt_setAttrAt (n v : String) (p : NodePath) (e : Elem) (q : NodePath) :
    tagAt (setAttrAt n v p e) q = tagAt e q := by
  induction p generalizing e q with
  | nil =>
    cases q with
    | nil => cases e; rfl
    | cons j q' => cases e; rfl
  | cons i p' ih =>
    cases e with
    | mk t a s cs =>
      cases q with
      | nil => rfl
      | cons j q' =>
        simp only [tagAt, setAttrAt, Elem.tag, Elem.attrs, Elem.text, Elem.children,
          nodeAt_cons, modifyIdx_getElem]
        by_cases hj : j = i
        · subst hj
          cases hcs : cs[j]? with
          | none => simp
          | some c =>
            simp only [Option.map_some']
            have := ih c q'
            simpa [tagAt] using this
        · simp [hj]

theorem textAt_setAttrAt (n v : String) (p : NodePath) (e : Elem) (q : NodePath) :
    textAt (setAttrAt n v p e) q = textAt e q := by
  induction p generalizing e q with
  | nil =>
    cases q with
    | nil => cases e; rfl
    | cons j q' => cases e; rfl
  | cons i p' ih =>
    cases e with
    | mk t a s cs =>
      cases q with
      | nil => rfl
      | cons j q' =>
        simp only [textAt, setAttrAt, Elem.tag, Elem.attrs, Elem.text, Elem.children,
          nodeAt_cons, modifyIdx_getElem]
        by_cases hj : j = i
        · subst hj
          cases hcs : cs[j]? with
          | none => simp
          | some c =>
            simp only [Option.map_some']
            have := ih c q'
            simpa [textAt] using this
        · simp [hj]

theorem childTagsAt_setAttrAt (n v : String) (p : NodePath) (e : Elem) (q : NodePath) :
    childTagsAt (setAttrAt n v p e) q = childTagsAt e q := by
  induction p generalizing e q with
  | nil =>
    cases q with
    | nil => cases e; rfl
    | cons j q' => cases e; rfl
  | cons i p' ih =>
    cases e with
    | mk t a s cs =>
      cases q with
      | nil =>
        simp only [childTagsAt, setAttrAt, Elem.tag, Elem.attrs, Elem.text, Elem.children,
          Elem.nodeAt, Option.map_some']
        congr 1
        apply List.ext_getElem?
        intro j
        rw [List.getElem?_map, List.getElem?_map, modifyIdx_getElem]
        by_cases hj : j = i
        · subst hj
          cases hcs : cs[j]? with
          | none => simp
          | some c => simp [setAttrAt_tag]
        · simp [hj]
      | cons j q' =>
        simp only [childTagsAt, setAttrAt, Elem.tag, Elem.attrs, Elem.text, Elem.children,
          nodeAt_cons, modifyIdx_getElem]
        by_cases hj : j = i
        · subst hj
          cases hcs : cs[j]? with
          | none => simp
          | some c =>
            simp only [Option.map_some']
            have := ih c q'
            simpa [childTagsAt] using this
        · simp [hj]

theorem attrsAt_setAttrAt_ne (n v : String) (p : NodePath) (e : Elem) (q : NodePath)
    (hq : q ≠ p) : attrsAt (setAttrAt n v p e) q = attrsAt e q := by
  induction p generalizing e q with
  | nil =>
    cases q with
    | nil => exact absurd rfl hq
    | cons j q' => cases e; rfl
  | cons i p' ih =>
    cases e with
    | mk t a s cs =>
      cases q with
      | nil => rfl
      | cons j q' =>
        simp only [attrsAt, setAttrAt, Elem.tag, Elem.attrs, Elem.text, Elem.children,
          nodeAt_cons, modifyIdx_getElem]
        by_cases hj : j = i
        · subst hj
          cases hcs : cs[j]? with
          | none => simp
          | some c =>
            simp only [Option.map_some']
            have hq' : q' ≠ p' := by
              intro h
              exact hq (by rw [h])
            have := ih c q' hq'
            simpa [attrsAt] using this
        · simp [hj]

theorem nodeAt_setAttrAt_self (n v : String) (p : NodePath) (e : Elem) :
    (setAttrAt n v p e).nodeAt p = (e.nodeAt p).map (fun x => x.setAttr n v) := by
  induction p generalizing e with
  | nil => rfl
  | cons i p' ih =>
    cases e with
    | mk t a s cs =>
      simp only [setAttrAt, Elem.tag, Elem.attrs, Elem.text, Elem.children,
        nodeAt_cons, modifyIdx_getElem, if_pos rfl]
      cases hcs : cs[i]? with
      | none => simp
      | some c => simp [ih]

theorem nodeAt_append (e : Elem) (p q : NodePath) :
    e.nodeAt (p ++ q) = (e.nodeAt p).bind (fun x => x.nodeAt q) := by
  induction p generalizing e with
  | nil => simp [Elem.nodeAt]
  | cons i p' ih =>
    cases e with
    | mk t a s cs =>
      simp only [List.cons_append, nodeAt_cons, Elem.children]
      cases hcs : cs[i]? with
      | none => simp
      | some c => simp [ih]

theorem iterPathsFrom_modifyIdx (tag : String) (f : Elem → Elem)
    (hf : ∀ c, iterPaths tag (f c) = iterPaths tag c) :
    ∀ (cs : List Elem) (i j : Nat),
      iterPathsFrom tag j (modifyIdx f i cs) = iterPathsFrom tag j cs := by
  intro cs
  induction cs with
  | nil => intro i j; cases i <;> rfl
  | cons c cs ih =>
    intro i j
    cases i with
    | zero => simp only [modifyIdx, iterPathsFrom, hf c]
    | succ i => simp only [modifyIdx, iterPathsFrom, ih]

theorem iterPaths_setAttrAt (tag n v : String) (p : NodePath) (e : Elem) :
    iterPaths tag (setAttrAt n v p e) = iterPaths tag e := by
  induction p generalizing e with
  | nil => cases e; rfl
  | cons i p' ih =>
    cases e with
    | mk t a s cs =>
      simp only [setAttrAt, Elem.tag, Elem.attrs, Elem.text, Elem.children, iterPaths]
      rw [iterPathsFrom_modifyIdx tag _ ih]

theorem mem_iterPathsFrom {tag : String} {q : NodePath} :
    ∀ {cs : List Elem} {j : Nat}, q ∈ iterPathsFrom tag j cs →
      ∃ k q' c, q = (j + k) :: q' ∧ cs[k]? = some c ∧ q' ∈ iterPaths tag c := by
  intro cs
  induction cs with
  | nil => intro j h; simp [iterPathsFrom] at h
  | cons c cs ih =>
    intro j h
    rcases List.mem_append.mp h with h | h
    · rcases List.mem_map.mp h with ⟨q', hq', rfl⟩
      exact ⟨0, q', c, by simp, by simp, hq'⟩
    · rcases ih h with ⟨k, q', c', hq, hc, hmem⟩
      refine ⟨k + 1, q', c', ?_, by simpa using hc, hmem⟩
      rw [hq]
      congr 1
      omega

theorem tagAt_of_mem_iterPaths {tag : String} {q : NodePath} :
    ∀ {e : Elem}, q ∈ iterPaths tag e → tagAt e q = some tag := by
  induction q with
  | nil =>
    intro e h
    cases e with
    | mk t a s cs =>
      by_cases ht : t = tag
      · simp [tagAt, Elem.nodeAt, Elem.tag, ht]
      · simp only [iterPaths, if_neg ht, List.nil_append] at h
        rcases mem_iterPathsFrom h with ⟨k, q', c, hq, _, _⟩
        exact absurd hq (by simp)
  | cons j q' ih =>
    intro e h
    cases e with
    | mk t a s cs =>
      simp only [iterPaths] at h
      rcases List.mem_append.mp h with h | h
      · by_cases ht : t = tag <;> simp [ht] at h
      · rcases mem_iterPathsFrom h with ⟨k, q'', c, hq, hc, hmem⟩
        have hk : k = j := by
          have := (List.cons.injEq _ _ _ _).mp hq
          omega
        have hq'' : q'' = q' := by
          have := (List.cons.injEq _ _ _ _).mp hq
          exact this.2.symm
      
        subst hk
        subst hq''
        simp only [tagAt, nodeAt_cons, Elem.children, hc]
        exact ih hmem

theorem findChildIdx_spec {tag : String} :
    ∀ {cs : List Elem} {j i : Nat}, findChildIdx tag j cs = some i →
      j ≤ i ∧ ∃ c, cs[i - j]? = some c ∧ c.tag = tag := by
  intro cs
  induction cs with
  | nil => intro j i h; simp [findChildIdx] at h
  | cons c cs ih =>
    intro j i h
    by_cases hc : c.tag = tag
    · simp only [findChildIdx, if_pos hc, Option.some.injEq] at h
      subst h
      exact ⟨Nat.le_refl j, c, by simp, hc⟩
    · simp only [findChildIdx, if_neg hc] at h
      obtain ⟨hji, c', hc', htag⟩ := ih h
      refine ⟨by omega, c', ?_, htag⟩
      have : i - j = (i - (j + 1)) + 1 := by omega
      rw [this]
      simpa using hc'

theorem findChildIdx_congr {tag : String} :
    ∀ {cs1 cs2 : List Elem} {j : Nat}, cs1.map Elem.tag = cs2.map Elem.tag →
      findChildIdx tag j cs1 = findChildIdx tag j cs2 := by
  intro cs1
  induction cs1 with
  | nil =>
    intro cs2 j h
    cases cs2 with
    | nil => rfl
    | cons c2 cs2' => simp at h
  | cons c cs ih =>
    intro cs2 j h
    cases cs2 with
    | nil => simp at h
    | cons c2 cs2' =>
      simp only [List.map_cons, List.cons.injEq] at h
      obtain ⟨htag, hrest⟩ := h
      simp only [findChildIdx, htag]
      by_cases hc : c2.tag = tag
      · simp [hc]
      · simp [hc, ih hrest]

theorem find?_congr {α : Type} {f g : α → Bool} :
    ∀ {l : List α}, (∀ x ∈ l, f x = g x) → l.find? f = l.find? g := by
  intro l
  induction l with
  | nil => intro h; rfl
  | cons a as ih =>
    intro h
    have ha : f a = g a := h a (by simp)
    rw [List.find?_cons, List.find?_cons, ha]
    cases g a with
    | true => rfl
    | false => exact ih (fun x hx => h x (by simp [hx]))

theorem find?_eq_head_filter {α : Type} (f : α → Bool) :
    ∀ (l : List α), l.find? f = (l.filter f).head? := by
  intro l
  induction l with
  | nil => rfl
  | cons a as ih =>
    rw [List.find?_cons, List.filter_cons]
    cases hfa : f a with
    | true => simp
    | false =>
      rw [if_neg (by simp)]
      exact ih

theorem matchAt_congr {r1 r2 : Elem} {key : String} {q : NodePath}
    (ha : attrsAt r1 q = attrsAt r2 q) (ht : textAt r1 q = textAt r2 q) :
    matchAt r1 key q = matchAt r2 key q := by
  unfold matchAt
  cases h1 : r1.nodeAt q with
  | none =>
    cases h2 : r2.nodeAt q with
    | none => rfl
    | some e2 =>
      rw [attrsAt, attrsAt, h1, h2] at ha
      simp at ha
  | some e1 =>
    cases h2 : r2.nodeAt q with
    | none =>
      rw [attrsAt, attrsAt, h1, h2] at ha
      simp at ha
    | some e2 =>
      rw [attrsAt, attrsAt, h1, h2] at ha
      rw [textAt, textAt, h1, h2] at ht
      simp only [Option.map_some', Option.some.injEq] at ha ht
      dsimp only
      unfold textElemMatches Elem.getAttrD
      rw [ha, ht]

theorem findKeyRectPath_rect_tag {root : Elem} {key : String} {p : NodePath}
    (h : findKeyRectPath root key = some p) :
    ∃ c, root.nodeAt p = some c ∧ c.tag = svgRectTag := by
  unfold findKeyRectPath at h
  cases hfq : (iterPaths svgTextTag root).find? (fun q => matchAt root key q) with
  | none =>
    simp only [hfq] at h
    exact absurd h (by simp)
  | some q =>
    simp only [hfq] at h
    unfold rectFromTextPath at h
    cases q with
    | nil => simp [parentPath] at h
    | cons j q' =>
      have hp : parentPath (j :: q') = some ((j :: q').dropLast) := rfl
      simp only [hp] at h
      cases hpar : root.nodeAt ((j :: q').dropLast) with
      | none =>
        simp only [hpar] at h
        exact absurd h (by simp)
      | some par =>
        simp only [hpar] at h
        cases hidx : findChildIdx svgRectTag 0 par.children with
        | none =>
          simp only [hidx] at h
          exact absurd h (by simp)
        | some i =>
          simp only [hidx, Option.some.injEq] at h
          obtain ⟨-, c, hc, htag⟩ := findChildIdx_spec hidx
          refine ⟨c, ?_, htag⟩
          rw [← h, nodeAt_append, hpar]
          simp only [Option.some_bind]
          rw [nodeAt_cons]
          have hc' : par.children[i]? = some c := by simpa using hc
          simp [hc', Elem.nodeAt]

theorem rectFromTextPath_congr {r1 r2 : Elem}
    (h : ∀ qq, childTagsAt r1 qq = childTagsAt r2 qq) (tp : NodePath) :
    rectFromTextPath r1 tp = rectFromTextPath r2 tp := by
  unfold rectFromTextPath
  cases tp with
  | nil => rfl
  | cons j q' =>
    have hp : parentPath (j :: q') = some ((j :: q').dropLast) := rfl
    simp only [hp]
    have hct := h ((j :: q').dropLast)
    cases h1 : r1.nodeAt ((j :: q').dropLast) with
    | none =>
      cases h2 : r2.nodeAt ((j :: q').dropLast) with
      | none => simp only [h1, h2]
      | some par2 =>
        rw [childTagsAt, childTagsAt, h1, h2] at hct
        simp at hct
    | some par1 =>
      cases h2 : r2.nodeAt ((j :: q').dropLast) with
      | none =>
        rw [childTagsAt, childTagsAt, h1, h2] at hct
        simp at hct
      | some par2 =>
        rw [childTagsAt, childTagsAt, h1, h2] at hct
        simp only [Option.map_some', Option.some.injEq] at hct
        simp only [h1, h2]
        rw [findChildIdx_congr hct]

theorem findKeyRectPath_setAttrAt {root : Elem} {p : NodePath} (v key : String)
    (hrect : tagAt root p = some svgRectTag) :
    findKeyRectPath (setAttrAt "class" v p root) key = findKeyRectPath root key := by
  unfold findKeyRectPath
  rw [iterPaths_setAttrAt]
  have hcong : ∀ q ∈ iterPaths svgTextTag root,
      matchAt (setAttrAt "class" v p root) key q = matchAt root key q := by
    intro q hq
    have htag : tagAt root q = some svgTextTag := tagAt_of_mem_iterPaths hq
    have hqp : q ≠ p := by
      intro he
      rw [he, hrect] at htag
      have : svgRectTag = svgTextTag := by
        simpa using htag
      exact absurd this (by decide)
    exact matchAt_congr (attrsAt_setAttrAt_ne _ _ _ _ _ hqp) (textAt_setAttrAt _ _ _ _ _)
  rw [find?_congr hcong]
  cases hfq : (iterPaths svgTextTag root).find? (fun q => matchAt root key q) with
  | none => rfl
  | some q =>
    exact rectFromTextPath_congr (fun qq => childTagsAt_setAttrAt _ _ _ _ _) q

theorem update_none_eq {st : WidgetState} {k : String} (b : Bool)
    (hf : findKeyRectPath st.svg_root k = none) :
    update_key_state st k b = st := by
  simp [update_key_state, hf]

theorem update_some_eq {st : WidgetState} {k : String} {p : NodePath} (b : Bool)
    (hf : findKeyRectPath st.svg_root k = some p) :
    update_key_state st k b =
      { svg_root := setAttrAt "class"
          (pyJoin (sortDedup (if b then addTok "held" (pySplit (classAt st.svg_root p))
            else removeTok "held" (pySplit (classAt st.svg_root p))))) p st.svg_root
        held_keys := if b then addTok k st.held_keys else removeTok k st.held_keys
        reloads := st.reloads + 1 } := by
  simp [update_key_state, hf]

theorem findKeyRectPath_update (st : WidgetState) (k : String) (b : Bool) (k' : String) :
    findKeyRectPath (update_key_state st k b).svg_root k' = findKeyRectPath st.svg_root k' := by
  cases hf : findKeyRectPath st.svg_root k with
  | none => rw [update_none_eq b hf]
  | some p =>
    obtain ⟨c, hc, htag⟩ := findKeyRectPath_rect_tag hf
    have hrect : tagAt st.svg_root p = some svgRectTag := by
      simp [tagAt, hc, htag]
    rw [update_some_eq b hf]
    exact findKeyRectPath_setAttrAt _ k' hrect

theorem classAt_congr {r1 r2 : Elem} {q : NodePath}
    (h : attrsAt r1 q = attrsAt r2 q) : classAt r1 q = classAt r2 q := by
  unfold classAt
  cases h1 : r1.nodeAt q with
  | none =>
    cases h2 : r2.nodeAt q with
    | none => rfl
    | some e2 =>
      rw [attrsAt, attrsAt, h1, h2] at h
      simp at h
  | some e1 =>
    cases h2 : r2.nodeAt q with
    | none =>
      rw [attrsAt, attrsAt, h1, h2] at h
      simp at h
    | some e2 =>
      rw [attrsAt, attrsAt, h1, h2] at h
      simp only [Option.map_some', Option.some.injEq] at h
      dsimp only
      unfold Elem.getAttrD
      rw [h]

theorem classAt_update_self {st : WidgetState} {k : String} {p : NodePath} (b : Bool)
    (hf : findKeyRectPath st.svg_root k = some p) :
    classAt (update_key_state st k b).svg_root p =
      pyJoin (sortDedup (if b then addTok "held" (pySplit (classAt st.svg_root p))
        else removeTok "held" (pySplit (classAt st.svg_root p)))) := by
  obtain ⟨c, hc, htag⟩ := findKeyRectPath_rect_tag hf
  rw [update_some_eq b hf]
  unfold classAt
  rw [nodeAt_setAttrAt_self, hc]
  simp [getAttrD_setAttr]

theorem classAt_update_ne {st : WidgetState} {k : String} {p q : NodePath} (b : Bool)
    (hf : findKeyRectPath st.svg_root k = some p) (hq : q ≠ p) :
    classAt (update_key_state st k b).svg_root q = classAt st.svg_root q := by
  rw [update_some_eq b hf]
  exact classAt_congr (attrsAt_setAttrAt_ne _ _ _ _ _ hq)

theorem setAttrList_idem (a : List (String × String)) (n v : String) :
    setAttrList (setAttrList a n v) n v = setAttrList a n v := by
  induction a with
  | nil => simp [setAttrList]
  | cons p r ih =>
    obtain ⟨k, w⟩ := p
    by_cases hk : n = k
    · simp [setAttrList, hk]
    · simp [setAttrList, hk, ih]

theorem setAttr_idem (e : Elem) (n v : String) :
    (e.setAttr n v).setAttr n v = e.setAttr n v := by
  cases e
  simp [Elem.setAttr, setAttrList_idem]

theorem modifyIdx_comp (f g : Elem → Elem) (i : Nat) (cs : List Elem) :
    modifyIdx f i (modifyIdx g i cs) = modifyIdx (fun c => f (g c)) i cs := by
  induction cs generalizing i with
  | nil => cases i <;> rfl
  | cons c cs ih =>
    cases i with
    | zero => rfl
    | succ i => simp [modifyIdx, ih]

theorem setAttrAt_idem (n v : String) (p : NodePath) (e : Elem) :
    setAttrAt n v p (setAttrAt n v p e) = setAttrAt n v p e := by
  induction p generalizing e with
  | nil => exact setAttr_idem e n v
  | cons i p' ih =>
    cases e with
    | mk t a s cs =>
      simp only [setAttrAt, Elem.tag, Elem.attrs, Elem.text, Elem.children, Elem.mk.injEq,
        true_and]
      rw [modifyIdx_comp]
      congr 1
      funext c
      exact ih c

theorem update_update_core {st : WidgetState} {k : String} {p : NodePath} (b : Bool)
    (hf : findKeyRectPath st.svg_root k = some p) :
    (update_key_state (update_key_state st k b) k b).svg_root
        = (update_key_state st k b).svg_root
    ∧ (update_key_state (update_key_state st k b) k b).held_keys
        = (update_key_state st k b).held_keys
    ∧ (update_key_state (update_key_state st k b) k b).reloads
        = (update_key_state st k b).reloads + 1 := by
  have hf1 : findKeyRectPath (update_key_state st k b).svg_root k = some p := by
    rw [findKeyRectPath_update, hf]
  have hgood : ∀ t ∈ (if b then addTok "held" (pySplit (classAt st.svg_root p))
      else removeTok "held" (pySplit (classAt st.svg_root p))), goodTok t := by
    intro t ht
    cases b with
    | true =>
      simp only [if_pos rfl] at ht
      rcases mem_addTok.mp ht with rfl | ht
      · exact goodTok_held
      · exact goodTok_of_mem_pySplit ht
    | false =>
      simp only [Bool.false_eq_true, if_false] at ht
      exact goodTok_of_mem_pySplit (mem_removeTok.mp ht).1
  have hsplit : pySplit (classAt (update_key_state st k b).svg_root p)
      = sortDedup (if b then addTok "held" (pySplit (classAt st.svg_root p))
        else removeTok "held" (pySplit (classAt st.svg_root p))) := by
    rw [classAt_update_self b hf]
    exact pySplit_serialize hgood
  have hsame : (if b then addTok "held" (pySplit (classAt (update_key_state st k b).svg_root p))
      else removeTok "held" (pySplit (classAt (update_key_state st k b).svg_root p)))
      = sortDedup (if b then addTok "held" (pySplit (classAt st.svg_root p))
        else removeTok "held" (pySplit (classAt st.svg_root p))) := by
    rw [hsplit]
    cases b with
    | true =>
      simp only [if_pos rfl]
      apply addTok_of_mem
      rw [mem_sortDedup]
      exact mem_addTok.mpr (Or.inl rfl)
    | false =>
      simp only [Bool.false_eq_true, if_false]
      apply removeTok_of_not_mem
      rw [mem_sortDedup]
      exact not_mem_removeTok _ _
  refine ⟨?_, ?_, ?_⟩
  · rw [update_some_eq b hf1]
    dsimp only
    rw [hsame, sortDedup_idem, update_some_eq b hf]
    dsimp only
    exact setAttrAt_idem _ _ _ _
  · rw [update_some_eq b hf1]
    dsimp only
    rw [update_some_eq b hf]
    dsimp only
    cases b with
    | true => simp [addTok_idem]
    | false => simp [removeTok_idem]
  · rw [update_some_eq b hf1]

theorem lookupStr_mem_snd {ps : List (String × String)} {n v : String}
    (h : lookupStr ps n = some v) : v ∈ ps.map Prod.snd := by
  induction ps with
  | nil => simp [lookupStr] at h
  | cons p r ih =>
    obtain ⟨k, w⟩ := p
    by_cases hk : n = k
    · simp [lookupStr, hk] at h
      simp [h]
    · simp only [lookupStr, if_neg hk] at h
      simpa using Or.inr (ih h)

theorem evdev_vals_lower_ne_x : ∀ v ∈ EVDEV_KEY_MAP.map Prod.snd, pyLower v ≠ "x" := by
  decide

theorem find_docA_char {l : String} {p : NodePath}
    (h : findKeyRectPath docA l = some p) : l = "a" ∧ p = [0, 0] := by
  unfold findKeyRectPath at h
  have hiter : iterPaths svgTextTag docA = [[0, 1]] := by decide
  rw [hiter, List.find?_cons] at h
  cases hb : matchAt docA l [0, 1] with
  | false => simp [hb] at h
  | true =>
    simp only [hb, if_true] at h
    have hr : rectFromTextPath docA [0, 1] = some [0, 0] := by decide
    rw [hr] at h
    have hp : p = [0, 0] := by
      have := (Option.some.injEq _ _).mp h
      exact this.symm
    have he : ("a" == l) = true := hb
    exact ⟨(eq_of_beq he).symm, hp⟩

theorem applySeq_held_last {l : String} :
    ∀ (seq : List Bool) (st : WidgetState) (p : NodePath),
      findKeyRectPath st.svg_root l = some p → seq ≠ [] →
      (l ∈ (applySeq st (seq.map (fun b => (l, b)))).held_keys ↔ seq.getLast? = some true) := by
  intro seq
  induction seq with
  | nil => intro st p hf hne; exact absurd rfl hne
  | cons b rest ih =>
    intro st p hf hne
    cases rest with
    | nil =>
      simp only [List.map_cons, List.map_nil, applySeq]
      rw [update_some_eq b hf]
      dsimp only
      cases b with
      | true => simp [mem_addTok]
      | false => simp [mem_removeTok]
    | cons b2 rest2 =>
      have hf1 : findKeyRectPath (update_key_state st l b).svg_root l = some p := by
        rw [findKeyRectPath_update, hf]
      have hrec := ih (update_key_state st l b) p hf1 (by simp)
      simp only [List.map_cons, applySeq] at hrec ⊢
      rw [List.getLast?_cons_cons]
      exact hrec

theorem applySeq_invariant (root : Elem)
    (hinj : ∀ l1 l2 p1 p2, findKeyRectPath root l1 = some p1 →
      findKeyRectPath root l2 = some p2 → l1 ≠ l2 → p1 ≠ p2) :
    ∀ (seq : List (String × Bool)) (st : WidgetState),
      (∀ l', findKeyRectPath st.svg_root l' = findKeyRectPath root l') →
      (∀ l p, findKeyRectPath root l = some p →
        ("held" ∈ pySplit (classAt st.svg_root p) ↔ l ∈ st.held_keys)) →
      (∀ l', findKeyRectPath (applySeq st seq).svg_root l' = findKeyRectPath root l')
      ∧ (∀ l p, findKeyRectPath root l = some p →
        ("held" ∈ pySplit (classAt (applySeq st seq).svg_root p)
          ↔ l ∈ (applySeq st seq).held_keys)) := by
  intro seq
  induction seq with
  | nil => intro st hfind hinv; exact ⟨hfind, hinv⟩
  | cons kb rest ih =>
    obtain ⟨k, b⟩ := kb
    intro st hfind hinv
    simp only [applySeq]
    apply ih
    · intro l'
      rw [findKeyRectPath_update, hfind]
    · intro l p hl
      cases hk : findKeyRectPath root k with
      | none =>
        have hn : findKeyRectPath st.svg_root k = none := by rw [hfind, hk]
        rw [update_none_eq b hn]
        exact hinv l p hl
      | some pk =>
        have hfk : findKeyRectPath st.svg_root k = some pk := by rw [hfind, hk]
        by_cases hlk : l = k
        · subst hlk
          have hp : p = pk := by
            rw [hl] at hk
            exact ((Option.some.injEq _ _).mp hk)
          subst hp
          have hgood : ∀ t ∈ (if b then addTok "held" (pySplit (classAt st.svg_root p))
              else removeTok "held" (pySplit (classAt st.svg_root p))), goodTok t := by
            intro t ht
            cases b with
            | true =>
              simp only [if_pos rfl] at ht
              rcases mem_addTok.mp ht with rfl | ht
              · exact goodTok_held
              · exact goodTok_of_mem_pySplit ht
            | false =>
              simp only [Bool.false_eq_true, if_false] at ht
              exact goodTok_of_mem_pySplit (mem_removeTok.mp ht).1
          rw [classAt_update_self b hfk, update_some_eq b hfk]
          dsimp only
          rw [mem_pySplit_serialize hgood]
          cases b with
          | true =>
            simp only [if_pos rfl]
            constructor
            · intro _
              exact mem_addTok.mpr (Or.inl rfl)
            · intro _
              exact mem_addTok.mpr (Or.inl rfl)
          | false =>
            simp only [Bool.false_eq_true, if_false]
            constructor
            · intro hmem
              exact absurd hmem (not_mem_removeTok _ _)
            · intro hmem
              exact absurd hmem (not_mem_removeTok _ _)
        · have hpk : p ≠ pk := hinj l k p pk hl hk hlk
          rw [classAt_update_ne b hfk hpk, update_some_eq b hfk]
          dsimp only
          rw [hinv l p hl]
          cases b with
          | true => simp [mem_addTok, hlk]
          | false => simp [mem_removeTok, hlk]

/-! ### Claim theorems -/

/-- C1 counterexample: on a document with key `a`, pressing `a` twice
triggers a second reserialization/reload/repaint (the reload counter goes
from 1 to 2), so the claimed no-op on the second identical call is false
for the code as written: `update_key_state` has no desired-equals-current
check and always reloads when the label resolves. -/
theorem c1_counterexample :
    (update_key_state (update_key_state (initState docA) "a" true) "a" true).reloads = 2
    ∧ (update_key_state (initState docA) "a" true).reloads = 1 := by
  exact ⟨by decide, by decide⟩

/-- C1 (amended): calling `update_key_state` a second time with the same
`is_held` value for a resolving label leaves the document tree and the
held-key set unchanged (the class attribute is rewritten to the identical
string), but the document is still reserialized, the renderer reloaded,
and a repaint triggered once more. -/
theorem c1_second_update_rerenders (st : WidgetState) (k : String) (b : Bool) (p : NodePath)
    (hf : findKeyRectPath st.svg_root k = some p) :
    (update_key_state (update_key_state st k b) k b).svg_root
        = (update_key_state st k b).svg_root
    ∧ (update_key_state (update_key_state st k b) k b).held_keys
        = (update_key_state st k b).held_keys
    ∧ (update_key_state (update_key_state st k b) k b).reloads
        = (update_key_state st k b).reloads + 1 :=
  update_update_core b hf

/-- C1 witness: the amended statement instantiated on the concrete
document `docA` with label `a`. -/
theorem c1_witness :
    (update_key_state (update_key_state (initState docA) "a" true) "a" true).svg_root
      = (update_key_state (initState docA) "a" true).svg_root :=
  (c1_second_update_rerenders (initState docA) "a" true [0, 0] (by decide)).1

/-- C2 counterexample: in `docAB` the labels `a` (tap) and `A` (shifted)
resolve to the same rectangle; after press(`a`) then release(`A`), the
label `a` is still in the held-key set but the shared rectangle no longer
carries the `held` token, refuting the claimed iff for reachable states. -/
theorem c2_counterexample :
    findKeyRectPath (applySeq (initState docAB) [("a", true), ("A", false)]).svg_root "a"
        = some [0, 0]
    ∧ "a" ∈ (applySeq (initState docAB) [("a", true), ("A", false)]).held_keys
    ∧ "held" ∉ pySplit
        (classAt (applySeq (initState docAB) [("a", true), ("A", false)]).svg_root [0, 0]) := by
  exact ⟨by decide, by decide, by decide⟩

/-- C2 (amended): for documents in which distinct labels resolve to
distinct rectangles, the invariant holds: in every reachable state, a
resolving label's rectangle carries the `held` class token exactly when
the label is a member of the held-key set. -/
theorem c2_held_invariant (root : Elem)
    (hinit : ∀ l p, findKeyRectPath root l = some p → "held" ∉ pySplit (classAt root p))
    (hinj : ∀ l1 l2 p1 p2, findKeyRectPath root l1 = some p1 →
      findKeyRectPath root l2 = some p2 → l1 ≠ l2 → p1 ≠ p2)
    (seq : List (String × Bool)) (l : String) (p : NodePath)
    (hf : findKeyRectPath (applySeq (initState root) seq).svg_root l = some p) :
    ("held" ∈ pySplit (classAt (applySeq (initState root) seq).svg_root p)
      ↔ l ∈ (applySeq (initState root) seq).held_keys) := by
  obtain ⟨hfind, hinv⟩ := applySeq_invariant root hinj seq (initState root)
    (fun l' => rfl)
    (fun l0 p0 h0 => by
      constructor
      · intro hmem
        exact absurd hmem (hinit l0 p0 h0)
      · intro hmem
        exact absurd hmem (List.not_mem_nil _))
  have hr : findKeyRectPath root l = some p := by
    rw [← hfind l]
    exact hf
  exact hinv l p hr

/-- C2 witness: the amended invariant instantiated on `docA` (whose only
resolving label is `a`) after a single press. -/
theorem c2_witness :
    "held" ∈ pySplit (classAt (applySeq (initState docA) [("a", true)]).svg_root [0, 0]) := by
  have hinit : ∀ l p, findKeyRectPath docA l = some p → "held" ∉ pySplit (classAt docA p) := by
    intro l p h
    rw [(find_docA_char h).2]
    decide
  have hinj : ∀ l1 l2 p1 p2, findKeyRectPath docA l1 = some p1 →
      findKeyRectPath docA l2 = some p2 → l1 ≠ l2 → p1 ≠ p2 := by
    intro l1 l2 p1 p2 h1 h2 hne
    exact absurd ((find_docA_char h1).1.trans (find_docA_char h2).1.symm) hne
  exact (c2_held_invariant docA hinit hinj [("a", true)] "a" [0, 0] (by decide)).mpr (by decide)

/-- C3: a received key character that is a case variant of the reserved
exit label `x` always closes the window and never reaches
`update_key_state`.  For the window-focused Qt backend this holds for
every event whose derived `key_char` lowercases to `x` (the handler
compares case-insensitively); for the global device backend every emitted
character is either a mapped special label or an already-lowercased key
name, so an emitted case variant of `x` is necessarily `x` itself, which
the handlers special-case before any update on press and on release. -/
theorem c3_exit_label_closes :
    (∀ ev : QKeyEvent, qtKeyChar ev ≠ "" → pyLower (qtKeyChar ev) = "x" →
       keyPressEvent ev = KeyAction.closeWindow ∧ keyReleaseEvent ev = KeyAction.ignore)
    ∧ (∀ keycode key_char, evdevEmit keycode = some key_char → pyLower key_char = "x" →
       key_char = "x" ∧ on_global_key_press key_char = KeyAction.closeWindow
         ∧ on_global_key_release key_char = KeyAction.ignore) := by
  constructor
  · intro ev hne hx
    constructor
    · unfold keyPressEvent
      rw [if_pos ⟨hne, hx⟩]
    · unfold keyReleaseEvent
      rw [if_neg (fun hc => hc.2 hx)]
  · intro keycode key_char hemit hx
    unfold evdevEmit at hemit
    by_cases hpre : isPrefixL "KEY_".data keycode.data
    · rw [if_pos hpre] at hemit
      dsimp only at hemit
      cases hlk : lookupStr EVDEV_KEY_MAP (pyLower (pyDrop4 keycode)) with
      | some v =>
        rw [hlk] at hemit
        simp only [Option.getD_some, Option.isSome_some, Bool.or_true, if_true,
          Option.some.injEq] at hemit
        have hv : v = key_char := hemit
        rw [← hv] at hx
        exact absurd hx (evdev_vals_lower_ne_x v (lookupStr_mem_snd hlk))
      | none =>
        rw [hlk] at hemit
        simp only [Option.getD_none, Option.isSome_none, Bool.or_false] at hemit
        by_cases hlen : pyLen (pyLower (pyDrop4 keycode)) = 1
        · rw [show decide (pyLen (pyLower (pyDrop4 keycode)) = 1) = true from by
            simp [hlen]] at hemit
          rw [if_pos rfl] at hemit
          have hkc : key_char = pyLower (pyDrop4 keycode) :=
            ((Option.some.injEq _ _).mp hemit).symm
          rw [hkc, pyLower_idem] at hx
          have hxx : key_char = "x" := by rw [hkc, hx]
          subst hxx
          exact ⟨rfl, by simp [on_global_key_press], by simp [on_global_key_release]⟩
        · rw [show decide (pyLen (pyLower (pyDrop4 keycode)) = 1) = false from by
            simp [hlen]] at hemit
          rw [if_neg (by simp)] at hemit
          exact absurd hemit (by simp)
    · rw [if_neg hpre] at hemit
      exact absurd hemit (by simp)

/-- C3 witness: the theorem instantiated at a Qt event delivering text
`X` and at the raw device keycode `KEY_X`. -/
theorem c3_witness :
    keyPressEvent ⟨QtKey.other 88, "X"⟩ = KeyAction.closeWindow
    ∧ on_global_key_press "x" = KeyAction.closeWindow := by
  refine ⟨(c3_exit_label_closes.1 ⟨QtKey.other 88, "X"⟩ (by decide) (by decide)).1, ?_⟩
  exact (c3_exit_label_closes.2 "KEY_X" "x" (by decide) (by decide)).2.1

/-- C4: when several key-label text nodes share the same trimmed label,
`find_key_rect` resolves to the rectangle of the first occurrence in
document order (the head of the filtered candidate list), and
`update_key_state` for that label mutates no node other than that
rectangle: the attributes at every other path are untouched. -/
theorem c4_first_match_wins (root : Elem) (key : String) (p0 : NodePath)
    (rest : List NodePath) (hm : matchingTextPaths root key = p0 :: rest) :
    findKeyRectPath root key = rectFromTextPath root p0
    ∧ ∀ (st : WidgetState) (b : Bool) (rp q : NodePath), st.svg_root = root →
        rectFromTextPath root p0 = some rp → q ≠ rp →
        attrsAt (update_key_state st key b).svg_root q = attrsAt root q := by
  have hm' : (iterPaths svgTextTag root).filter (fun q => matchAt root key q)
      = p0 :: rest := hm
  have hfind : (iterPaths svgTextTag root).find? (fun q => matchAt root key q) = some p0 := by
    rw [find?_eq_head_filter, hm']
    rfl
  constructor
  · unfold findKeyRectPath
    rw [hfind]
  · intro st b rp q hst hrp hq
    have hf : findKeyRectPath st.svg_root key = some rp := by
      rw [hst]
      unfold findKeyRectPath
      simp only [hfind]
      exact hrp
    rw [update_some_eq b hf]
    dsimp only
    rw [hst]
    exact attrsAt_setAttrAt_ne _ _ _ _ _ hq

/-- C4 witness: `docDup` has two `a` key groups; lookup resolves to the
first group's rectangle and the second group's rectangle keeps its
attributes after a press of `a`. -/
theorem c4_witness :
    matchingTextPaths docDup "a" = [[0, 1], [1, 1]]
    ∧ findKeyRectPath docDup "a" = rectFromTextPath docDup [0, 1]
    ∧ attrsAt (update_key_state (initState docDup) "a" true).svg_root [1, 0]
        = attrsAt docDup [1, 0] := by
  have h := c4_first_match_wins docDup "a" [0, 1] [[1, 1]] (by decide)
  exact ⟨by decide, h.1,
    h.2 (initState docDup) true [0, 0] [1, 0] rfl (by decide) (by decide)⟩

/-- C5: for a resolving label, after any non-empty sequence of
press/release transitions for that label the label is held exactly when
the last transition was a press; a repeated press (or repeated release)
leaves the same held-key set as a single one, and no transition raises
an error (the model is total). -/
theorem c5_held_iff_last_press (st : WidgetState) (l : String) (p : NodePath)
    (hf : findKeyRectPath st.svg_root l = some p) :
    (∀ seq : List Bool, seq ≠ [] →
      (l ∈ (applySeq st (seq.map (fun b => (l, b)))).held_keys ↔ seq.getLast? = some true))
    ∧ (update_key_state (update_key_state st l true) l true).held_keys
        = (update_key_state st l true).held_keys
    ∧ (update_key_state (update_key_state st l false) l false).held_keys
        = (update_key_state st l false).held_keys := by
  refine ⟨fun seq hne => applySeq_held_last seq st p hf hne, ?_, ?_⟩
  · exact (update_update_core true hf).2.1
  · exact (update_update_core false hf).2.1

/-- C5 witness: two consecutive presses of `a` on `docA` leave `a` held
(the last transition was a press). -/
theorem c5_witness :
    "a" ∈ (applySeq (initState docA) ([true, true].map (fun b => ("a", b)))).held_keys :=
  ((c5_held_iff_last_press (initState docA) "a" [0, 0] (by decide)).1
    [true, true] (by decide)).mpr (by decide)

/-- C6: pressing the same indexed label twice yields the same serialized
class attribute both times; after the mutation the attribute contains the
token `held` exactly once and equals the lexicographically sorted,
space-joined serialization of its own token set. -/
theorem c6_idempotent_serialization (st : WidgetState) (k : String) (p : NodePath)
    (hf : findKeyRectPath st.svg_root k = some p) :
    classAt (update_key_state (update_key_state st k true) k true).svg_root p
        = classAt (update_key_state st k true).svg_root p
    ∧ List.count "held" (pySplit (classAt (update_key_state st k true).svg_root p)) = 1
    ∧ classAt (update_key_state st k true).svg_root p
        = pyJoin (sortDedup (pySplit (classAt (update_key_state st k true).svg_root p))) := by
  have hgood : ∀ t ∈ addTok "held" (pySplit (classAt st.svg_root p)), goodTok t := by
    intro t ht
    rcases mem_addTok.mp ht with rfl | ht
    · exact goodTok_held
    · exact goodTok_of_mem_pySplit ht
  have hclass : classAt (update_key_state st k true).svg_root p
      = pyJoin (sortDedup (addTok "held" (pySplit (classAt st.svg_root p)))) := by
    have h := classAt_update_self true hf
    simpa using h
  have hsplit : pySplit (classAt (update_key_state st k true).svg_root p)
      = sortDedup (addTok "held" (pySplit (classAt st.svg_root p))) := by
    rw [hclass]
    exact pySplit_serialize hgood
  refine ⟨?_, ?_, ?_⟩
  · exact congrArg (fun r => classAt r p) (update_update_core true hf).1
  · rw [hsplit]
    exact List.count_eq_one_of_mem (sortDedup_nodup _)
      (mem_sortDedup.mpr (mem_addTok.mpr (Or.inl rfl)))
  · rw [hsplit, sortDedup_idem, hclass]

/-- C6 witness: on `docA`, after press(`a`) the rectangle's class
attribute contains `held` exactly once. -/
theorem c6_witness :
    List.count "held"
      (pySplit (classAt (update_key_state (initState docA) "a" true).svg_root [0, 0])) = 1 :=
  (c6_idempotent_serialization (initState docA) "a" [0, 0] (by decide)).2.1

/-- C7: for a label with no matching key rectangle, `update_key_state`
is a complete no-op: the parsed tree, the held-key set and the reload
counter (hence renderer contents and repaints) are all unchanged,
whatever the `is_held` argument. -/
theorem c7_absent_label_noop (st : WidgetState) (k : String) (b : Bool)
    (hf : findKeyRectPath st.svg_root k = none) :
    update_key_state st k b = st :=
  update_none_eq b hf

/-- C7 witness: the label `q` is absent from `docA`, and updating it is
the identity on the widget state. -/
theorem c7_witness :
    findKeyRectPath (initState docA).svg_root "q" = none
    ∧ update_key_state (initState docA) "q" true = initState docA :=
  ⟨by decide, c7_absent_label_noop (initState docA) "q" true (by decide)⟩

/-- C8: the device key map sends both `KEY_LEFTSHIFT` and
`KEY_RIGHTSHIFT` to the canonical label `Shift`; when `Shift` resolves
to a rectangle, a press of the left shift followed by a release of the
right shift leaves the held-key set with `Shift` not held. -/
theorem c8_shift_collapse (w : WindowState) (p : NodePath)
    (hf : findKeyRectPath w.widget.svg_root "Shift" = some p) :
    evdevEmit "KEY_LEFTSHIFT" = some "Shift"
    ∧ evdevEmit "KEY_RIGHTSHIFT" = some "Shift"
    ∧ "Shift" ∉ (deviceKeyEvent (deviceKeyEvent w "KEY_LEFTSHIFT" true)
        "KEY_RIGHTSHIFT" false).widget.held_keys := by
  refine ⟨by decide, by decide, ?_⟩
  have hel : evdevEmit "KEY_LEFTSHIFT" = some "Shift" := by decide
  have her : evdevEmit "KEY_RIGHTSHIFT" = some "Shift" := by decide
  have h1 : deviceKeyEvent w "KEY_LEFTSHIFT" true
      = { w with widget := update_key_state w.widget "Shift" true } := by
    simp [deviceKeyEvent, hel, on_global_key_press, applyAction]
  have hf1 : findKeyRectPath (update_key_state w.widget "Shift" true).svg_root "Shift"
      = some p := by
    rw [findKeyRectPath_update, hf]
  have h2 :
      deviceKeyEvent { w with widget := update_key_state w.widget "Shift" true } "KEY_RIGHTSHIFT" false
        = { w with widget := update_key_state (update_key_state w.widget "Shift" true) "Shift" false } := by
    simp [deviceKeyEvent, her, on_global_key_release, applyAction]
  rw [h1, h2]
  dsimp only
  rw [update_some_eq false hf1]
  dsimp only
  simp only [Bool.false_eq_true, if_false]
  exact not_mem_removeTok _ _

/-- C8 witness: the theorem instantiated on a window showing `docShift`. -/
theorem c8_witness :
    "Shift" ∉ (deviceKeyEvent (deviceKeyEvent ⟨initState docShift, false⟩ "KEY_LEFTSHIFT" true)
        "KEY_RIGHTSHIFT" false).widget.held_keys :=
  (c8_shift_collapse ⟨initState docShift, false⟩ [0, 0] (by decide)).2.2

/-- C9: when the SVG input file does not exist, `live()` prints the
error and exits with code 1 before creating the Qt application or the
window; when it exists, the window is created and no early exit occurs. -/
theorem c9_missing_file_fails_fast (fsExists : String → Bool) :
    (fsExists "test/miryoku-num.svg" = false →
      (live fsExists).errorPrinted = true
      ∧ (live fsExists).earlyExitCode = some 1
      ∧ (live fsExists).appCreated = false
      ∧ (live fsExists).windowCreated = false)
    ∧ (fsExists "test/miryoku-num.svg" = true →
      (live fsExists).windowCreated = true ∧ (live fsExists).earlyExitCode = none) := by
  constructor
  · intro h
    simp [live, h]
  · intro h
    simp [live, h]

/-- C9 witness: the theorem instantiated on the two constant
filesystems. -/
theorem c9_witness :
    (live (fun _ => false)).earlyExitCode = some 1
    ∧ (live (fun _ => true)).windowCreated = true :=
  ⟨((c9_missing_file_fails_fast (fun _ => false)).1 rfl).2.1,
   ((c9_missing_file_fails_fast (fun _ => true)).2 rfl).1⟩

/-- C10: `has_pyqt6` is total and returns `True` exactly when the import
succeeds; any raised exception, `ImportError` or otherwise, yields
`False`. -/
theorem c10_has_pyqt6_total (a : Except PyException Unit) :
    (has_pyqt6 a = true ↔ a = Except.ok ())
    ∧ ∀ e : PyException, has_pyqt6 (Except.error e) = false := by
  constructor
  · cases a with
    | ok u =>
      cases u
      simp [has_pyqt6]
    | error e => simp [has_pyqt6]
  · intro e
    rfl
